import Mathlib

/-!
# Verification of the EnsemblLite alignment-parsing core

Shallow embedding of the EMF/MAF flatfile parsers (`src/ensembl_lite/emf.py`,
`src/ensembl_lite/maf.py`), the entity-name model (`src/ensembl_lite/name.py`)
and the coordinate-array codec (`src/ensembl_cli/_db_base.py`).

Python strings are modelled as Lean `String`s manipulated through their
character lists; Python exceptions are modelled with `Except PErr`; optional
values with `Option`.  The gzip compressor used by the codec is an external
library, so it is passed in as an abstract `List Nat → List Nat` function
pair; theorems that need it assume the documented gzip round-trip contract.
-/

/-- Errors raised by the embedded code.  `formatError` models the
`NotImplementedError` raised by `parse_emf` on a bad header (the spec calls
it FormatError), `missingData` the `RuntimeError("missing DATA block")`,
`typeError` the `TypeError` from constructing a dataclass with the wrong
number of fields, `valueError` Python `ValueError` (failed `int()` or tuple
unpacking), `indexError` Python `IndexError` (`data[0]` on an empty list). -/
inductive PErr where
  | formatError
  | missingData
  | typeError
  | valueError
  | indexError
  deriving DecidableEq, Repr

/-! ## Python string primitives

Structural-recursion models of the Python `str` operations the parsers use,
working over the character list of a `String` so that every definition
reduces by `decide`/`rfl`. -/

/-- `startsList pre l` is true when `pre` is an initial segment of `l`
(the list form of Python `str.startswith`). -/
def startsList : List Char → List Char → Bool
  | [], _ => true
  | _ :: _, [] => false
  | a :: as, b :: bs => a == b && startsList as bs

/-- Python `s.startswith(pre)`. -/
def pyStartsWith (s pre : String) : Bool :=
  startsList pre.data s.data

/-- `containsSub needle hay`: the list form of Python `needle in hay`. -/
def containsSub (needle : List Char) : List Char → Bool
  | [] => startsList needle []
  | l@(_ :: rest) => startsList needle l || containsSub needle rest

/-- Python `needle in hay` on strings. -/
def pyContains (hay needle : String) : Bool :=
  containsSub needle.data hay.data

/-- Python `s[:n]`. -/
def pyTake (s : String) (n : Nat) : String :=
  ⟨s.data.take n⟩

/-- Helper for `pySplitWs`: accumulates the current word (reversed). -/
def splitWsAux : List Char → List Char → List (List Char)
  | [], acc => if acc.isEmpty then [] else [acc.reverse]
  | c :: rest, acc =>
    if c.isWhitespace then
      if acc.isEmpty then splitWsAux rest [] else acc.reverse :: splitWsAux rest []
    else splitWsAux rest (c :: acc)

/-- Python `s.split()` with no argument: split on whitespace runs, dropping
empty fields (which also makes a preceding `strip()` a no-op). -/
def pySplitWs (s : String) : List String :=
  (splitWsAux s.data []).map String.mk

/-- Python `s.split(".", maxsplit=1)` followed by unpacking into two
variables: `none` models the `ValueError` when `s` has no dot. -/
def splitFirstDot (s : String) : Option (String × String) :=
  (breakDot s.data).map (fun p => (⟨p.1⟩, ⟨p.2⟩))
where
  breakDot : List Char → Option (List Char × List Char)
    | [] => none
    | c :: rest =>
      if c == '.' then some ([], rest)
      else (breakDot rest).map (fun p => (c :: p.1, p.2))

/-- Digits of a decimal numeral accumulated left to right; `none` when a
non-digit appears or the list is empty. -/
def natOfDigits : List Char → Option Nat
  | [] => none
  | l => l.foldl
      (fun acc c =>
        acc.bind (fun a => if c.isDigit then some (a * 10 + (c.toNat - 48)) else none))
      (some 0)

/-- Python `int(s)` for the decimal numerals (optional leading `-`) that
occur in alignment files; `none` models the `ValueError`. -/
def pyToInt (s : String) : Option Int :=
  match s.data with
  | '-' :: rest => (natOfDigits rest).map (fun n => -(n : Int))
  | l => (natOfDigits l).map (fun n => (n : Int))

/-- Python `":".join(parts)`. -/
def joinColon : List String → String
  | [] => ""
  | [x] => x
  | x :: rest => x ++ ":" ++ joinColon rest

/-! ## Coordinate array codec (`src/ensembl_cli/_db_base.py`)

`array_to_sqlite(data)` is `gzip.compress(data.tobytes())`;
`sqlite_to_array(data)` is
`numpy.frombuffer(gzip.decompress(data), dtype=numpy.int32)` followed by
`result.reshape((result.shape[0] // 2, 2))`.  Arrays are modelled as a list
of two-column rows together with their element dtype; bytes are `Nat`s
below 256 produced little-endian, matching `numpy.tobytes` on the
little-endian platforms Ensembl targets. -/

/-- A numpy integer dtype as used by the codec. -/
inductive DType where
  | int32
  | int64
  deriving DecidableEq, Repr

/-- A two-column numpy integer array: its element dtype and its rows. -/
structure NDArray where
  dtype : DType
  rows : List (Int × Int)
  deriving DecidableEq, Repr

/-- Little-endian bytes of a `Nat` below `2^32`. -/
def natToBytes4 (n : Nat) : List Nat :=
  [n % 256, n / 256 % 256, n / 65536 % 256, n / 16777216 % 256]

/-- Little-endian bytes of a `Nat` below `2^64`. -/
def natToBytes8 (n : Nat) : List Nat :=
  [n % 256, n / 256 % 256, n / 65536 % 256, n / 16777216 % 256,
   n / 4294967296 % 256, n / 1099511627776 % 256,
   n / 281474976710656 % 256, n / 72057594037927936 % 256]

/-- The 4 bytes of an `Int` stored as a 32-bit two's-complement value. -/
def int32Bytes (v : Int) : List Nat :=
  natToBytes4 (v % 4294967296).toNat

/-- The 8 bytes of an `Int` stored as a 64-bit two's-complement value. -/
def int64Bytes (v : Int) : List Nat :=
  natToBytes8 (v % 18446744073709551616).toNat

/-- Reading a `Nat` below `2^32` back as a signed 32-bit value. -/
def natToInt32 (n : Nat) : Int :=
  if n < 2147483648 then (n : Int) else (n : Int) - 4294967296

/-- `numpy.ndarray.tobytes()`: the raw element bytes in row-major order,
with the element width given by the dtype — no dtype or shape metadata. -/
def NDArray.tobytes (a : NDArray) : List Nat :=
  match a.dtype with
  | .int32 => a.rows.flatMap (fun p => int32Bytes p.1 ++ int32Bytes p.2)
  | .int64 => a.rows.flatMap (fun p => int64Bytes p.1 ++ int64Bytes p.2)

/-- `numpy.frombuffer(bytes, dtype=numpy.int32)`: reinterpret the bytes as
little-endian signed 32-bit integers; `none` models the `ValueError` raised
when the byte count is not a multiple of the 4-byte item size. -/
def bytesToInt32s : List Nat → Option (List Int)
  | [] => some []
  | b0 :: b1 :: b2 :: b3 :: rest =>
    match bytesToInt32s rest with
    | some l => some (natToInt32 (b0 + 256 * b1 + 65536 * b2 + 16777216 * b3) :: l)
    | none => none
  | _ => none

/-- `result.reshape((result.shape[0] // 2, 2))`: pair up consecutive values;
`none` models the `ValueError` raised when the value count is odd. -/
def int32sToRows : List Int → Option (List (Int × Int))
  | [] => some []
  | a :: b :: rest =>
    match int32sToRows rest with
    | some r => some ((a, b) :: r)
    | none => none
  | _ => none

/-- `array_to_sqlite(data) = gzip.compress(data.tobytes())` with the gzip
compressor passed in as an abstract function. -/
def array_to_sqlite (compress : List Nat → List Nat) (a : NDArray) : List Nat :=
  compress a.tobytes

/-- Modelled from the documented behavior of the external gzip library
(CPython `gzip.compress` with its defaults, which is how `array_to_sqlite`
calls it — no `mtime` argument, so `mtime=None` and the CURRENT TIME of the
call is written into the container): the output blob is the 10-byte gzip
header — magic `1f 8b`, deflate method 8, flags 0, the call time as a
4-byte little-endian MTIME field, XFL 2, OS 255 — followed by the deflate
body and trailer, abstracted here as the `deflate` function of the input
bytes.  The `mtime` parameter makes the wall-clock dependence explicit. -/
def gzip_compress (deflate : List Nat → List Nat) (mtime : Nat)
    (bs : List Nat) : List Nat :=
  [31, 139, 8, 0] ++ natToBytes4 mtime ++ [2, 255] ++ deflate bs

/-- `sqlite_to_array(data)`: decompress, reinterpret as int32, reshape to
two columns.  The result always has dtype int32. -/
def sqlite_to_array (decompress : List Nat → List Nat) (blob : List Nat) :
    Option NDArray :=
  match bytesToInt32s (decompress blob) with
  | none => none
  | some ints =>
    match int32sToRows ints with
    | none => none
    | some rows => some ⟨.int32, rows⟩

/-! ## Entity names (`src/ensembl_lite/name.py`)

`EmfName` and `MafName` are Python dataclasses; `__post_init__` converts the
coordinates to `int` and shifts `start` into 0-based convention.  Both
classes keep the dataclass-generated `__eq__` (field-wise over all six
fields) and define `__hash__ = hash(str(self))` with `str` the colon-join of
the five printable attributes.  Equality is modelled by Lean structural
equality of the structures below (field-wise, like the dataclass `__eq__`);
the hash basis `str(self)` is modelled by `.str`, so two names have equal
Python hashes whenever their `.str`s are equal. -/

/-- `EmfName` after `__post_init__`: `start`/`end` are ints, `start` is the
raw value minus 1; `strand` and `coord_length` stay strings.  The Python
attribute `end` is spelled `end_` (Lean keyword). -/
structure EmfName where
  species : String
  coord_name : String
  start : Int
  end_ : Int
  strand : String
  coord_length : String
  deriving DecidableEq, Repr

/-- `EmfName.__str__`: colon-join of the five printable attributes. -/
def EmfName.str (n : EmfName) : String :=
  joinColon [n.species, n.coord_name, toString n.start, toString n.end_, n.strand]

/-- `EmfName(*tokens)` followed by `__post_init__`: requires exactly the six
dataclass fields (`typeError` otherwise, the Python `TypeError`), and
integer conversion of start/end (`valueError` on failure). -/
def emfNameOfTokens : List String → Except PErr EmfName
  | [sp, cn, st, en, strand, cl] =>
    match pyToInt st, pyToInt en with
    | some s, some e => .ok ⟨sp, cn, s - 1, e, strand, cl⟩
    | _, _ => .error .valueError
  | _ => .error .typeError

/-- `MafName` after `__post_init__`: `start` is the raw value minus 1,
`coord_length` is `int(coord_length) if coord_length else None`. -/
structure MafName where
  species : String
  coord_name : String
  start : Int
  end_ : Int
  strand : String
  coord_length : Option Int
  deriving DecidableEq, Repr

/-- `MafName.__str__`: colon-join of the five printable attributes. -/
def MafName.str (n : MafName) : String :=
  joinColon [n.species, n.coord_name, toString n.start, toString n.end_, n.strand]

/-- Constructing a `MafName` from the already-int fields passed by
`_get_seqs`, applying `__post_init__`: start shifted by −1, and a zero
`coord_length` (falsy in Python) becomes `None`. -/
def mkMafName (species coord : String) (start end_ : Int) (strand : String)
    (coord_length : Int) : MafName :=
  ⟨species, coord, start - 1, end_, strand,
   if coord_length ≠ 0 then some coord_length else none⟩

/-! ## MAF parser (`src/ensembl_lite/maf.py`)

The input file is modelled as its list of lines (`infile.readlines()`), each
line a `String`. -/

/-- The loop body of `_get_alignment_block_indices`: walks the lines with
the running index `i` and the optional `start` of the open block, returning
the `(start, i)` pairs appended inside the loop together with the final
value of `start`. -/
def mafBlocksGo : List String → Nat → Option Nat → List (Nat × Nat) × Option Nat
  | [], _, st => ([], st)
  | line :: rest, i, st =>
    if pyStartsWith line "a" then
      let r := mafBlocksGo rest (i + 1) (some i)
      ((match st with | some s => [(s, i)] | none => []) ++ r.1, r.2)
    else mafBlocksGo rest (i + 1) st

/-- `_get_alignment_block_indices`: block index pairs.  After the loop the
code appends `(start, i)` with `i` still bound to the LAST line index,
`len(data) - 1`. -/
def _get_alignment_block_indices (data : List String) : List (Nat × Nat) :=
  match mafBlocksGo data 0 none with
  | (_, none) => []
  | (bs, some s) => bs ++ [(s, data.length - 1)]

/-- `_get_seqs`: one `(MafName, seq)` per retained `s` line, in input order
(the Python dict preserves insertion order).  A retained line must split
into exactly seven whitespace fields (`valueError` otherwise), its second
field must contain a dot, and start/size/src_size must parse as ints.  The
entity's `end` is `start + start`, exactly as in the source. -/
def _get_seqs : List String → Except PErr (List (MafName × String))
  | [] => .ok []
  | line :: rest =>
    if !pyStartsWith line "s" || pyContains (pyTake line 100) "ancestral" then
      _get_seqs rest
    else
      match pySplitWs line with
      | [_, srcCoord, startS, sizeS, strandS, clS, seq] =>
        match splitFirstDot srcCoord with
        | none => .error .valueError
        | some (species, coord) =>
          match pyToInt startS, pyToInt sizeS, pyToInt clS with
          | some start, some _size, some cl =>
            match _get_seqs rest with
            | .ok r => .ok ((mkMafName species coord start (start + start) strandS cl, seq) :: r)
            | .error e => .error e
          | _, _, _ => .error .valueError
      | _ => .error .valueError

/-- `maf.parse` (without the file I/O): one `_get_seqs` result per block
index pair, each over the slice `data[block_start:block_end]`. -/
def maf_parse (data : List String) : List (Except PErr (List (MafName × String))) :=
  (_get_alignment_block_indices data).map
    (fun se => _get_seqs ((data.drop se.1).take (se.2 - se.1)))

/-! ## EMF parser (`src/ensembl_lite/emf.py`) -/

/-- The SEQ-scanning loop of `_get_block_seqnames`: collects one `EmfName`
per line starting with `SEQ` (from `line.strip().split()[1:]`), stops at the
first line starting with `DATA` and returns the remaining lines
(`data[i+1:]`), skipping any other line; the `for`/`else` raises
`missingData` when no `DATA` line exists. -/
def getSeqNames : List String → Except PErr (List EmfName × List String)
  | [] => .error .missingData
  | line :: rest =>
    if pyStartsWith line "SEQ" then
      match emfNameOfTokens ((pySplitWs line).drop 1) with
      | .error e => .error e
      | .ok n =>
        match getSeqNames rest with
        | .error e => .error e
        | .ok (ns, d) => .ok (n :: ns, d)
    else if pyStartsWith line "DATA" then .ok ([], rest)
    else getSeqNames rest

/-- The heads of every column list, or `none` if some column is empty:
one step of Python `zip(names, *seq_data)`. -/
def colHeads : List (List Char) → Option (List Char)
  | [] => some []
  | [] :: _ => none
  | (c :: _) :: rest =>
      match colHeads rest with
      | some t => some (c :: t)
      | none => none

/-- Python `zip(names, *seq_data)` followed by joining each tuple's
characters: pairs the j-th name with the string of the j-th character of
every data line, stopping as soon as the names or any data line run out. -/
def pyZip : List EmfName → List (List Char) → List (EmfName × String)
  | [], _ => []
  | n :: ns, cols =>
    match colHeads cols with
    | none => []
    | some hs => (n, String.mk hs) :: pyZip ns (cols.map (fun c => c.drop 1))

/-- `_get_block_seqnames`: scan the SEQ declarations up to `DATA`, truncate
each subsequent line to the declared sequence count
(`aln_col[:num_seqs]`), zip positionally and drop entries whose species is
`ancestral_sequences`. -/
def _get_block_seqnames (data : List String) : Except PErr (List (EmfName × String)) :=
  match getSeqNames data with
  | .error e => .error e
  | .ok (names, rest) =>
    let cols := rest.map (fun l => l.data.take names.length)
    .ok ((pyZip names cols).filter (fun p => p.1.species ≠ "ancestral_sequences"))

/-- `_iter_blocks`: the `(start, i)` pair of every line starting with `//`,
with `start` reset to `i + 1` after each one. -/
def _iter_blocks (data : List String) : List (Nat × Nat) :=
  go 0 0 data
where
  go (start i : Nat) : List String → List (Nat × Nat)
    | [] => []
    | line :: rest =>
      if pyStartsWith line "//" then (start, i) :: go (i + 1) (i + 1) rest
      else go start (i + 1) rest

/-- Collecting the generator's yields: one result per block index pair, cut
short by the first raised error. -/
def collectBlocks (f : Nat × Nat → Except PErr (List (EmfName × String))) :
    List (Nat × Nat) → Except PErr (List (List (EmfName × String)))
  | [] => .ok []
  | se :: rest =>
    match f se with
    | .error e => .error e
    | .ok m =>
      match collectBlocks f rest with
      | .error e => .error e
      | .ok ms => .ok (m :: ms)

/-- The block-mapping part of `parse_emf`: `extract_data(data[start:end])`
for every block index pair. -/
def emfBlocks (data : List String) : Except PErr (List (List (EmfName × String))) :=
  collectBlocks (fun se => _get_block_seqnames ((data.drop se.1).take (se.2 - se.1)))
    (_iter_blocks data)

/-- `parse_emf` (without file I/O): when `check_format` is set, `data[0]`
(an `indexError` on empty input) must start with `##FORMAT (compara)`,
otherwise the `NotImplementedError` — modelled as `formatError` — is
raised; then the blocks are parsed. -/
def parse_emf (check_format : Bool) (data : List String) :
    Except PErr (List (List (EmfName × String))) :=
  if check_format then
    match data with
    | [] => .error .indexError
    | first :: _ =>
      if pyStartsWith first "##FORMAT (compara)" then emfBlocks data
      else .error .formatError
  else emfBlocks data

/-! ## Codec lemmas -/

/-- Recombining the four little-endian bytes of a value below `2^32`. -/
theorem combine4 (n : Nat) (h : n < 4294967296) :
    n % 256 + 256 * (n / 256 % 256) + 65536 * (n / 65536 % 256) +
      16777216 * (n / 16777216 % 256) = n := by omega

/-- A 32-bit two's-complement store/load is the identity on in-range ints. -/
theorem natToInt32_wrap (v : Int) (h1 : -2147483648 ≤ v) (h2 : v < 2147483648) :
    natToInt32 (v % 4294967296).toNat = v := by
  unfold natToInt32
  split <;> omega

/-- `bytesToInt32s` consumes the four bytes of one in-range int32 value. -/
theorem bytesToInt32s_int32Bytes (v : Int) (h1 : -2147483648 ≤ v)
    (h2 : v < 2147483648) (l : List Nat) :
    bytesToInt32s (int32Bytes v ++ l) =
      match bytesToInt32s l with
      | some r => some (v :: r)
      | none => none := by
  have hn : (v % 4294967296).toNat < 4294967296 := by omega
  simp only [int32Bytes, natToBytes4, List.cons_append, List.nil_append]
  rw [bytesToInt32s]
  rw [combine4 _ hn, natToInt32_wrap v h1 h2]

/-- Reading back the raw bytes of an in-range int32 array recovers the flat
value sequence. -/
theorem bytesToInt32s_tobytes32 (rows : List (Int × Int))
    (hval : ∀ p ∈ rows, -2147483648 ≤ p.1 ∧ p.1 < 2147483648 ∧
      -2147483648 ≤ p.2 ∧ p.2 < 2147483648) :
    bytesToInt32s (NDArray.tobytes ⟨DType.int32, rows⟩) =
      some (rows.flatMap (fun p => [p.1, p.2])) := by
  induction rows with
  | nil => rfl
  | cons p rest ih =>
    obtain ⟨ha1, ha2, hb1, hb2⟩ := hval p (by simp)
    have ih' := ih (fun q hq => hval q (by simp [hq]))
    simp only [NDArray.tobytes] at ih' ⊢
    simp only [List.flatMap_cons, List.append_assoc]
    rw [bytesToInt32s_int32Bytes p.1 ha1 ha2, bytesToInt32s_int32Bytes p.2 hb1 hb2, ih']
    simp

/-- Re-pairing a flattened row list recovers the rows. -/
theorem int32sToRows_flat (rows : List (Int × Int)) :
    int32sToRows (rows.flatMap (fun p => [p.1, p.2])) = some rows := by
  induction rows with
  | nil => rfl
  | cons p rest ih =>
    simp only [List.flatMap_cons, List.cons_append, List.nil_append]
    simp [int32sToRows, ih]

/-- Two gzip blobs written at times that differ modulo `2^32` differ in the
MTIME field of their headers, whatever the deflate body is. -/
theorem gzip_mtime_dependence (deflate : List Nat → List Nat) (t1 t2 : Nat)
    (ht : t1 % 4294967296 ≠ t2 % 4294967296) (bs : List Nat) :
    gzip_compress deflate t1 bs ≠ gzip_compress deflate t2 bs := by
  intro heq
  simp only [gzip_compress, natToBytes4, List.cons_append, List.nil_append,
    List.cons.injEq] at heq
  obtain ⟨-, -, -, -, h1, h2, h3, h4, -⟩ := heq
  omega

/-- C2 counterexample: `array_to_sqlite` calls `gzip.compress` with the
default `mtime=None`, which embeds the call time in the blob header, so
encoding the same array twice — here at consecutive seconds 0 and 1, with
identical compression settings — yields different byte blobs, refuting the
claim's determinism clause. -/
theorem codec_determinism_counterexample :
    array_to_sqlite (gzip_compress id 0) ⟨DType.int32, [(1, -2)]⟩ ≠
      array_to_sqlite (gzip_compress id 1) ⟨DType.int32, [(1, -2)]⟩ := by
  decide

/-- C2 amended: decoding the encoded form yields an array element-wise
equal to the original for every int32 2-column array, the empty case
included (gzip abstracted by its documented lossless round-trip contract);
but the identical-blobs clause fails: the encoder calls `gzip.compress`
with the default `mtime=None`, so the call time is embedded in the blob and
two encodings of the same array at times differing modulo `2^32` produce
different blobs. -/
theorem codec_roundtrip (compress decompress : List Nat → List Nat)
    (hgzip : ∀ b, decompress (compress b) = b)
    (a : NDArray) (hdt : a.dtype = DType.int32)
    (hval : ∀ p ∈ a.rows, -2147483648 ≤ p.1 ∧ p.1 < 2147483648 ∧
      -2147483648 ≤ p.2 ∧ p.2 < 2147483648)
    (deflate : List Nat → List Nat) (t1 t2 : Nat)
    (ht : t1 % 4294967296 ≠ t2 % 4294967296) :
    sqlite_to_array decompress (array_to_sqlite compress a) = some a ∧
    array_to_sqlite (gzip_compress deflate t1) a ≠
      array_to_sqlite (gzip_compress deflate t2) a := by
  constructor
  · obtain ⟨dt, rows⟩ := a
    cases hdt
    unfold array_to_sqlite sqlite_to_array
    rw [hgzip]
    rw [bytesToInt32s_tobytes32 rows hval]
    simp [int32sToRows_flat]
  · exact gzip_mtime_dependence deflate t1 t2 ht a.tobytes

/-- Witness for C2 (amended) at the concrete array `[(1, -2)]`, with the
identity function as the abstract round-tripping compressor and as the
deflate body, at call times 0 and 1. -/
theorem codec_roundtrip_witness :
    (sqlite_to_array id (array_to_sqlite id ⟨DType.int32, [(1, -2)]⟩) =
      some ⟨DType.int32, [(1, -2)]⟩) ∧
    array_to_sqlite (gzip_compress id 0) ⟨DType.int32, [(1, -2)]⟩ ≠
      array_to_sqlite (gzip_compress id 1) ⟨DType.int32, [(1, -2)]⟩ :=
  codec_roundtrip id id (fun _ => rfl) ⟨DType.int32, [(1, -2)]⟩ rfl (by decide)
    id 0 1 (by decide)

/-- A successful `frombuffer` consumed four bytes per value. -/
theorem bytesToInt32s_length (bs : List Nat) :
    ∀ l, bytesToInt32s bs = some l → bs.length = 4 * l.length := by
  induction bs using bytesToInt32s.induct with
  | case1 =>
    intro l h
    simp only [bytesToInt32s, Option.some.injEq] at h
    subst h
    rfl
  | case2 b0 b1 b2 b3 rest r hr ih =>
    intro l h
    simp only [bytesToInt32s, hr, Option.some.injEq] at h
    subst h
    have := ih r hr
    simp only [List.length_cons]
    omega
  | case3 b0 b1 b2 b3 rest hr ih =>
    intro l h
    simp only [bytesToInt32s, hr] at h
    exact Option.noConfusion h
  | case4 t h1 h2 =>
    intro l h
    exfalso
    match t, h1, h2, h with
    | [], h1, _, _ => exact h1 rfl
    | [a], _, _, h => exact Option.noConfusion h
    | [a, b], _, _, h => exact Option.noConfusion h
    | [a, b, c], _, _, h => exact Option.noConfusion h
    | a :: b :: c :: d :: rest, _, h2, _ => exact h2 a b c d rest rfl

/-- A successful reshape consumed two values per row. -/
theorem int32sToRows_length (l : List Int) :
    ∀ r, int32sToRows l = some r → l.length = 2 * r.length := by
  induction l using int32sToRows.induct with
  | case1 =>
    intro r h
    simp only [int32sToRows, Option.some.injEq] at h
    subst h
    rfl
  | case2 a b rest r hr ih =>
    intro r' h
    simp only [int32sToRows, hr, Option.some.injEq] at h
    subst h
    have := ih r hr
    simp only [List.length_cons]
    omega
  | case3 a b rest hr ih =>
    intro r h
    simp only [int32sToRows, hr] at h
    exact Option.noConfusion h
  | case4 t h1 h2 =>
    intro r h
    exfalso
    match t, h1, h2, h with
    | [], h1, _, _ => exact h1 rfl
    | [a], _, _, h => exact Option.noConfusion h
    | a :: b :: rest, _, h2, _ => exact h2 a b rest rfl

/-- `frombuffer` succeeds on any byte count divisible by four. -/
theorem bytesToInt32s_total (bs : List Nat) :
    bs.length % 4 = 0 → ∃ l, bytesToInt32s bs = some l ∧ l.length = bs.length / 4 := by
  induction bs using bytesToInt32s.induct with
  | case1 => intro _; exact ⟨[], rfl, rfl⟩
  | case2 b0 b1 b2 b3 rest r hr ih =>
    intro h
    simp only [List.length_cons] at h
    obtain ⟨l, hl, hlen⟩ := ih (by omega)
    refine ⟨natToInt32 (b0 + 256 * b1 + 65536 * b2 + 16777216 * b3) :: l, ?_, ?_⟩
    · simp only [bytesToInt32s, hl]
    · simp only [List.length_cons]
      omega
  | case3 b0 b1 b2 b3 rest hr ih =>
    intro h
    simp only [List.length_cons] at h
    obtain ⟨l, hl, _⟩ := ih (by omega)
    rw [hr] at hl
    exact absurd hl (by simp)
  | case4 t h1 h2 =>
    intro h
    exfalso
    match t, h1, h2, h with
    | [], h1, _, _ => exact h1 rfl
    | [a], _, _, h => simp at h
    | [a, b], _, _, h => simp at h
    | [a, b, c], _, _, h => simp at h
    | a :: b :: c :: d :: rest, _, h2, _ => exact h2 a b c d rest rfl

/-- The reshape succeeds on any even value count. -/
theorem int32sToRows_total (l : List Int) :
    l.length % 2 = 0 → ∃ r, int32sToRows l = some r ∧ r.length = l.length / 2 := by
  induction l using int32sToRows.induct with
  | case1 => intro _; exact ⟨[], rfl, rfl⟩
  | case2 a b rest r hr ih =>
    intro h
    simp only [List.length_cons] at h
    obtain ⟨r', hr', hlen⟩ := ih (by omega)
    refine ⟨(a, b) :: r', ?_, ?_⟩
    · simp only [int32sToRows, hr']
    · simp only [List.length_cons]
      omega
  | case3 a b rest hr ih =>
    intro h
    simp only [List.length_cons] at h
    obtain ⟨r', hr', _⟩ := ih (by omega)
    rw [hr] at hr'
    exact absurd hr' (by simp)
  | case4 t h1 h2 =>
    intro h
    exfalso
    match t, h1, h2, h with
    | [], h1, _, _ => exact h1 rfl
    | [a], _, _, h => simp at h
    | a :: b :: rest, _, h2, _ => exact h2 a b rest rfl

/-- C9: decoding fails (`None`, modelling the raised error) whenever the
decompressed byte count is not a multiple of 8, and otherwise returns a
2-column int32 array whose row count is the byte count divided by 8. -/
theorem decode_rowcount (decompress : List Nat → List Nat) (blob : List Nat) :
    ((decompress blob).length % 8 ≠ 0 → sqlite_to_array decompress blob = none) ∧
    ((decompress blob).length % 8 = 0 →
      ∃ a : NDArray, sqlite_to_array decompress blob = some a ∧ a.dtype = DType.int32 ∧
        a.rows.length = (decompress blob).length / 8) := by
  constructor
  · intro h8
    cases hb : bytesToInt32s (decompress blob) with
    | none => simp [sqlite_to_array, hb]
    | some ints =>
      cases hr : int32sToRows ints with
      | none => simp [sqlite_to_array, hb, hr]
      | some rows =>
        exfalso
        have h1 := bytesToInt32s_length _ _ hb
        have h2 := int32sToRows_length _ _ hr
        omega
  · intro h8
    obtain ⟨ints, hb, hbl⟩ := bytesToInt32s_total (decompress blob) (by omega)
    obtain ⟨rows, hr, hrl⟩ := int32sToRows_total ints (by omega)
    refine ⟨⟨DType.int32, rows⟩, ?_, rfl, ?_⟩
    · simp [sqlite_to_array, hb, hr]
    · simp only [hrl, hbl]
      omega

/-- Witness for C9: a 4-byte blob (not a multiple of 8) fails to decode, and
an 8-byte blob decodes to one row, under the identity decompressor. -/
theorem decode_rowcount_witness :
    sqlite_to_array id [0, 0, 0, 0] = none ∧
    (∃ a : NDArray, sqlite_to_array id [7, 0, 0, 0, 5, 0, 0, 0] = some a ∧
      a.dtype = DType.int32 ∧ a.rows.length = 1) :=
  ⟨(decode_rowcount id [0, 0, 0, 0]).1 (by decide),
   (decode_rowcount id [7, 0, 0, 0, 5, 0, 0, 0]).2 (by decide)⟩

/-- The raw bytes of an int64 two-column array: sixteen per row. -/
theorem tobytes64_length (rows : List (Int × Int)) :
    (NDArray.tobytes ⟨DType.int64, rows⟩).length = 16 * rows.length := by
  induction rows with
  | nil => rfl
  | cons p rest ih =>
    have h1 : (int64Bytes p.1).length = 8 := rfl
    have h2 : (int64Bytes p.2).length = 8 := rfl
    simp only [NDArray.tobytes] at ih ⊢
    rw [List.flatMap_cons, List.length_append, List.length_append, h1, h2, ih,
      List.length_cons]
    omega

/-- C10: the encoder serializes only the raw bytes — no dtype, no shape —
and the decoder always reinterprets them as int32 pairs; hence encoding a
non-empty int64 two-column array and decoding it succeeds but yields an
array with twice as many rows, so the round-trip law fails outside the
32-bit precondition. -/
theorem encode_untyped_int64 (compress decompress : List Nat → List Nat)
    (hgzip : ∀ b, decompress (compress b) = b)
    (a : NDArray) (hdt : a.dtype = DType.int64) (hne : a.rows ≠ []) :
    ∃ b : NDArray, sqlite_to_array decompress (array_to_sqlite compress a) = some b ∧
      b.rows.length = 2 * a.rows.length ∧ b.rows.length ≠ a.rows.length ∧ b ≠ a := by
  obtain ⟨dt, rows⟩ := a
  cases hdt
  have hlen : (NDArray.tobytes ⟨DType.int64, rows⟩).length = 16 * rows.length :=
    tobytes64_length rows
  obtain ⟨ints, hb, hbl⟩ :=
    bytesToInt32s_total (NDArray.tobytes ⟨DType.int64, rows⟩) (by omega)
  obtain ⟨rows', hr, hrl⟩ := int32sToRows_total ints (by omega)
  have hpos : rows.length ≠ 0 := by
    intro h0
    exact hne (List.eq_nil_of_length_eq_zero h0)
  have hcount : rows'.length = 2 * rows.length := by omega
  refine ⟨⟨DType.int32, rows'⟩, ?_, ?_, ?_, ?_⟩
  · simp [array_to_sqlite, sqlite_to_array, hgzip, hb, hr]
  · exact hcount
  · show rows'.length ≠ rows.length
    omega
  · intro heq
    have : rows' = rows := congrArg NDArray.rows heq
    rw [this] at hcount
    omega

/-- Witness for C10 at the concrete int64 array `[(1, -2)]` with the
identity compressor. -/
theorem encode_untyped_int64_witness :
    ∃ b : NDArray,
      sqlite_to_array id (array_to_sqlite id ⟨DType.int64, [(1, -2)]⟩) = some b ∧
      b.rows.length = 2 * ([(1, -2)] : List (Int × Int)).length ∧
      b.rows.length ≠ ([(1, -2)] : List (Int × Int)).length ∧
      b ≠ ⟨DType.int64, [(1, -2)]⟩ :=
  encode_untyped_int64 id id (fun _ => rfl) ⟨DType.int64, [(1, -2)]⟩ rfl (by decide)

/-! ## Name identity (claim C4) -/

/-- C4 counterexample: two `MafName`s agreeing on the five printable
attributes but with coord_length 500 vs 600 do NOT compare equal — the
dataclass-generated `__eq__` compares all six fields — although their
printable forms (the basis of `__hash__`) coincide.  The claim asserts they
compare equal. -/
theorem name_eq_counterexample :
    ¬ ((⟨"human", "chr1", 99, 105, "+", some 500⟩ : MafName) =
        ⟨"human", "chr1", 99, 105, "+", some 600⟩) ∧
    MafName.str ⟨"human", "chr1", 99, 105, "+", some 500⟩ =
      MafName.str ⟨"human", "chr1", 99, 105, "+", some 600⟩ :=
  ⟨by decide, rfl⟩

/-- C4 amended: two entities (EMF or MAF) agreeing on species, coord_name,
start, end and strand but differing in coord_length have equal printable
forms — hence equal Python hashes, `__hash__` being `hash(str(self))` over
the five printable attributes — but they do NOT compare equal, because the
dataclass `__eq__` is field-wise over all attributes including
coord_length. -/
theorem name_identity_amended
    (a b : MafName) (h1 : a.species = b.species) (h2 : a.coord_name = b.coord_name)
    (h3 : a.start = b.start) (h4 : a.end_ = b.end_) (h5 : a.strand = b.strand)
    (h6 : a.coord_length ≠ b.coord_length)
    (e f : EmfName) (g1 : e.species = f.species) (g2 : e.coord_name = f.coord_name)
    (g3 : e.start = f.start) (g4 : e.end_ = f.end_) (g5 : e.strand = f.strand)
    (g6 : e.coord_length ≠ f.coord_length) :
    MafName.str a = MafName.str b ∧ a ≠ b ∧
    EmfName.str e = EmfName.str f ∧ e ≠ f := by
  refine ⟨?_, ?_, ?_, ?_⟩
  · unfold MafName.str
    rw [h1, h2, h3, h4, h5]
  · intro h
    exact h6 (by rw [h])
  · unfold EmfName.str
    rw [g1, g2, g3, g4, g5]
  · intro h
    exact g6 (by rw [h])

/-- Witness for C4 (amended) at concrete MAF and EMF names differing only
in coord_length. -/
theorem name_identity_amended_witness :
    MafName.str ⟨"human", "chr1", 99, 105, "+", some 500⟩ =
      MafName.str ⟨"human", "chr1", 99, 105, "+", some 600⟩ ∧
    (⟨"human", "chr1", 99, 105, "+", some 500⟩ : MafName) ≠
      ⟨"human", "chr1", 99, 105, "+", some 600⟩ ∧
    EmfName.str ⟨"sp", "c1", 0, 10, "1", "5"⟩ =
      EmfName.str ⟨"sp", "c1", 0, 10, "1", "6"⟩ ∧
    (⟨"sp", "c1", 0, 10, "1", "5"⟩ : EmfName) ≠ ⟨"sp", "c1", 0, 10, "1", "6"⟩ :=
  name_identity_amended
    ⟨"human", "chr1", 99, 105, "+", some 500⟩
    ⟨"human", "chr1", 99, 105, "+", some 600⟩ rfl rfl rfl rfl rfl (by decide)
    ⟨"sp", "c1", 0, 10, "1", "5"⟩
    ⟨"sp", "c1", 0, 10, "1", "6"⟩ rfl rfl rfl rfl rfl (by decide)

/-! ## MAF claims C1 and C5 -/

/-- C1 (code bug): on the spec's own example line
`s human.chr1 100 5 + 1000 ACGTA` the parser emits an entity whose start is
the raw start minus 1 (99) but whose end is `start + start` = 200, not
stored start + size = 104: `_get_seqs` passes `end=start + start` to
`MafName`.  The ancestral pre-filter itself works: a line whose first 100
characters contain `ancestral` is dropped. -/
theorem maf_end_arithmetic_bug :
    _get_seqs ["s human.chr1 100 5 + 1000 ACGTA"] =
      .ok [(⟨"human", "chr1", 99, 200, "+", some 1000⟩, "ACGTA")] ∧
    (200 : Int) ≠ 99 + 5 ∧
    _get_seqs ["s ancestral_sequences.chr 5 2 + 10 AC"] = .ok [] :=
  ⟨rfl, by decide, rfl⟩

/-- C5 (code bug): `_get_alignment_block_indices` closes the final block at
`(start, len(data) - 1)`, and `parse` slices `data[start:end]`, so the last
line of the file is excluded from the final block: for a two-line MAF input
whose second (last) line is a retained `s` line, the single emitted block
is empty instead of containing that sequence. -/
theorem maf_last_line_dropped :
    _get_alignment_block_indices
        ["a score=23.0", "s human.chr1 100 5 + 1000 ACGTA"] = [(0, 1)] ∧
    maf_parse ["a score=23.0", "s human.chr1 100 5 + 1000 ACGTA"] =
      [.ok []] :=
  ⟨rfl, rfl⟩

/-! ## EMF claims C3, C6, C7, C8 -/

/-- C3 counterexample: on the exact spec example input the parser raises,
because each `SEQ species1 chr1 1 10 1` line has only five fields after the
SEQ token while the `EmfName` dataclass requires six (`coord_length` has no
default), so `EmfName(*line.strip().split()[1:])` is a `TypeError`. -/
theorem emf_example_counterexample :
    parse_emf true ["##FORMAT (compara)", "SEQ species1 chr1 1 10 1",
      "SEQ species2 chr2 1 10 1", "DATA", "AC", "GT", "//"] =
      .error .typeError := rfl

/-- C3 amended: with the required sixth SEQ field (coord_length, here 17)
appended to each SEQ line, the input yields exactly one block mapping the
entity printed `species1:chr1:0:10:1` to `"AG"` and the entity printed
`species2:chr2:0:10:1` to `"CT"`, each sequence assembled positionally from
the i-th character of the data lines in SEQ order. -/
theorem emf_example_amended :
    parse_emf true ["##FORMAT (compara)", "SEQ species1 chr1 1 10 1 17",
      "SEQ species2 chr2 1 10 1 17", "DATA", "AC", "GT", "//"] =
      .ok [[(⟨"species1", "chr1", 0, 10, "1", "17"⟩, "AG"),
            (⟨"species2", "chr2", 0, 10, "1", "17"⟩, "CT")]] ∧
    EmfName.str ⟨"species1", "chr1", 0, 10, "1", "17"⟩ = "species1:chr1:0:10:1" ∧
    EmfName.str ⟨"species2", "chr2", 0, 10, "1", "17"⟩ = "species2:chr2:0:10:1" :=
  ⟨rfl, rfl, rfl⟩

/-- C6 counterexample: an input with a valid first block followed by two
consecutive `//` lines makes the parser raise the missing-DATA error on the
zero-length region instead of skipping it. -/
theorem emf_consecutive_separators_counterexample :
    parse_emf true ["##FORMAT (compara)", "SEQ s1 c1 1 1 + 5", "DATA", "A",
      "//", "//"] = .error .missingData := rfl

/-- If some block region errors, the whole collected parse errors. -/
theorem collectBlocks_error (f : Nat × Nat → Except PErr (List (EmfName × String)))
    (l : List (Nat × Nat)) (x : Nat × Nat) (hx : x ∈ l) (e : PErr)
    (he : f x = .error e) : ∃ e', collectBlocks f l = .error e' := by
  induction l with
  | nil => cases hx
  | cons y ys ih =>
    cases hx with
    | head => exact ⟨e, by simp [collectBlocks, he]⟩
    | tail _ hmem =>
      obtain ⟨e', he'⟩ := ih hmem
      cases hf : f y with
      | error e1 => exact ⟨e1, by simp [collectBlocks, hf]⟩
      | ok m => exact ⟨e', by simp [collectBlocks, hf, he']⟩

/-- Two consecutive `//` lines put a zero-length index pair `(k, k)` into
the `_iter_blocks` output. -/
theorem iterBlocks_consec (j : Nat) :
    ∀ (l : List String) (st i : Nat) (a b : String),
      l[j]? = some a → pyStartsWith a "//" = true →
      l[j + 1]? = some b → pyStartsWith b "//" = true →
      ∃ k, (k, k) ∈ _iter_blocks.go st i l := by
  induction j with
  | zero =>
    intro l st i a b ha hsa hb hsb
    match l, ha, hb with
    | x :: y :: rest, ha, hb =>
      obtain rfl : x = a := by simpa using ha
      obtain rfl : y = b := by simpa using hb
      exact ⟨i + 1, by simp [_iter_blocks.go, hsa, hsb]⟩
  | succ j ih =>
    intro l st i a b ha hsa hb hsb
    match l with
    | [] => simp at ha
    | c :: l' =>
      have ha' : l'[j]? = some a := by simpa using ha
      have hb' : l'[j + 1]? = some b := by simpa using hb
      by_cases hc : pyStartsWith c "//"
      · obtain ⟨k, hk⟩ := ih l' (i + 1) (i + 1) a b ha' hsa hb' hsb
        exact ⟨k, by simp [_iter_blocks.go, hc, hk]⟩
      · obtain ⟨k, hk⟩ := ih l' st (i + 1) a b ha' hsa hb' hsb
        exact ⟨k, by simp [_iter_blocks.go, hc, hk]⟩

/-- C6 amended: consecutive `//` lines create a zero-length region, but the
parser does NOT skip it: `_get_block_seqnames` of the empty slice hits the
`for`/`else` and raises the missing-DATA error, so the whole parse errors
instead of emitting the remaining blocks. -/
theorem emf_consecutive_separators_error (data : List String) (j : Nat)
    (a b : String)
    (ha : data[j]? = some a) (hsa : pyStartsWith a "//" = true)
    (hb : data[j + 1]? = some b) (hsb : pyStartsWith b "//" = true) :
    ∃ e, parse_emf false data = .error e := by
  obtain ⟨k, hk⟩ := iterBlocks_consec j data 0 0 a b ha hsa hb hsb
  have hx : _get_block_seqnames ((data.drop k).take (k - k)) =
      .error .missingData := by
    rw [Nat.sub_self]
    rfl
  obtain ⟨e, he⟩ := collectBlocks_error
    (fun se => _get_block_seqnames ((data.drop se.1).take (se.2 - se.1)))
    (_iter_blocks data) (k, k) hk .missingData hx
  exact ⟨e, by simpa [parse_emf, emfBlocks] using he⟩

/-- Witness for C6 (amended) at the two-line input `["//", "//"]`. -/
theorem emf_consecutive_separators_witness :
    ∃ e, parse_emf false ["//", "//"] = .error e :=
  emf_consecutive_separators_error ["//", "//"] 0 "//" "//" rfl rfl rfl rfl

/-- A successful `colHeads` yields one character per column. -/
theorem colHeads_length : ∀ (cols : List (List Char)) (hs : List Char),
    colHeads cols = some hs → hs.length = cols.length := by
  intro cols
  induction cols with
  | nil =>
    intro hs h
    simp only [colHeads, Option.some.injEq] at h
    subst h
    rfl
  | cons c rest ih =>
    intro hs h
    match c, h with
    | [], h => simp [colHeads] at h
    | x :: xs, h =>
      simp only [colHeads] at h
      cases hr : colHeads rest with
      | none =>
        rw [hr] at h
        exact absurd h (by simp)
      | some t =>
        rw [hr] at h
        simp only [Option.some.injEq] at h
        subst h
        simp [ih t hr]

/-- Every sequence string produced by the positional zip has exactly one
character per data line. -/
theorem pyZip_length : ∀ (names : List EmfName) (cols : List (List Char))
    (p : EmfName × String), p ∈ pyZip names cols → p.2.length = cols.length := by
  intro names
  induction names with
  | nil =>
    intro cols p hp
    simp [pyZip] at hp
  | cons n ns ih =>
    intro cols p hp
    simp only [pyZip] at hp
    cases hc : colHeads cols with
    | none =>
      rw [hc] at hp
      simp at hp
    | some hs =>
      rw [hc] at hp
      cases hp with
      | head =>
        show (String.mk hs).length = cols.length
        have hlen : (String.mk hs).length = hs.length := rfl
        rw [hlen]
        exact colHeads_length cols hs hc
      | tail _ hmem =>
        have := ih (cols.map (fun c => c.drop 1)) p hmem
        simpa using this

/-- A successfully extracted block has equal-length sequence strings and no
ancestral species. -/
theorem block_props (d : List String) (m : List (EmfName × String))
    (h : _get_block_seqnames d = .ok m) :
    (∀ p ∈ m, ∀ q ∈ m, p.2.length = q.2.length) ∧
    (∀ p ∈ m, p.1.species ≠ "ancestral_sequences") := by
  unfold _get_block_seqnames at h
  cases hg : getSeqNames d with
  | error e =>
    rw [hg] at h
    exact absurd h (by simp)
  | ok nr =>
    rw [hg] at h
    obtain ⟨names, rest⟩ := nr
    simp only [Except.ok.injEq] at h
    subst h
    constructor
    · intro p hp q hq
      have hp' := List.mem_filter.mp hp
      have hq' := List.mem_filter.mp hq
      rw [pyZip_length names _ p hp'.1, pyZip_length names _ q hq'.1]
    · intro p hp
      have := (List.mem_filter.mp hp).2
      simpa using this

/-- Every block in a successful collected parse comes from a successfully
extracted region. -/
theorem collectBlocks_ok_mem (f : Nat × Nat → Except PErr (List (EmfName × String)))
    (l : List (Nat × Nat)) : ∀ ms, collectBlocks f l = .ok ms →
    ∀ m ∈ ms, ∃ x ∈ l, f x = .ok m := by
  induction l with
  | nil =>
    intro ms h m hm
    simp only [collectBlocks, Except.ok.injEq] at h
    subst h
    cases hm
  | cons y ys ih =>
    intro ms h m hm
    simp only [collectBlocks] at h
    cases hf : f y with
    | error e =>
      rw [hf] at h
      exact absurd h (by simp)
    | ok b =>
      rw [hf] at h
      cases hr : collectBlocks f ys with
      | error e =>
        rw [hr] at h
        exact absurd h (by simp)
      | ok bs =>
        rw [hr] at h
        simp only [Except.ok.injEq] at h
        subst h
        cases hm with
        | head => exact ⟨y, List.mem_cons_self y ys, hf⟩
        | tail _ hmem =>
          obtain ⟨x, hx, hfx⟩ := ih bs hr m hmem
          exact ⟨x, List.mem_cons_of_mem y hx, hfx⟩

/-- C7: in every block emitted by the EMF parser, all sequence strings have
the same length (the alignment column count — each string has one character
per data line of its region), and no key's species is the ancestral marker
`ancestral_sequences`. -/
theorem emf_block_invariants (check : Bool) (data : List String)
    (blocks : List (List (EmfName × String)))
    (h : parse_emf check data = .ok blocks) :
    ∀ m ∈ blocks,
      (∀ p ∈ m, ∀ q ∈ m, p.2.length = q.2.length) ∧
      (∀ p ∈ m, p.1.species ≠ "ancestral_sequences") := by
  intro m hm
  have hblocks : emfBlocks data = .ok blocks := by
    unfold parse_emf at h
    cases check with
    | false => simpa using h
    | true =>
      match data, h with
      | [], h => exact absurd h (by simp)
      | first :: rest, h =>
        by_cases hh : pyStartsWith first "##FORMAT (compara)"
        · simpa [hh] using h
        · exact absurd h (by simp [hh])
  obtain ⟨se, _, hob⟩ :=
    collectBlocks_ok_mem _ (_iter_blocks data) blocks hblocks m hm
  exact block_props _ m hob

/-- Witness for C7 on a one-block EMF input, instantiated at its single
emitted block. -/
theorem emf_block_invariants_witness :
    (∀ p ∈ [((⟨"sp1", "c1", 0, 2, "+", "7"⟩ : EmfName), "A")],
      ∀ q ∈ [((⟨"sp1", "c1", 0, 2, "+", "7"⟩ : EmfName), "A")],
        p.2.length = q.2.length) ∧
    (∀ p ∈ [((⟨"sp1", "c1", 0, 2, "+", "7"⟩ : EmfName), "A")],
      p.1.species ≠ "ancestral_sequences") :=
  emf_block_invariants true
    ["##FORMAT (compara)", "SEQ sp1 c1 1 2 + 7", "DATA", "AG", "//"]
    [[(⟨"sp1", "c1", 0, 2, "+", "7"⟩, "A")]] rfl
    [(⟨"sp1", "c1", 0, 2, "+", "7"⟩, "A")] (by simp)

/-- `emfNameOfTokens` raises only TypeError or ValueError. -/
theorem emfNameOfTokens_err (toks : List String) (e : PErr)
    (h : emfNameOfTokens toks = .error e) :
    e = .typeError ∨ e = .valueError := by
  unfold emfNameOfTokens at h
  split at h
  · split at h
    · exact absurd h (by simp)
    · simp only [Except.error.injEq] at h
      exact Or.inr h.symm
  · simp only [Except.error.injEq] at h
    exact Or.inl h.symm

/-- The SEQ-scanning loop raises only missing-DATA, TypeError or
ValueError — never the header FormatError. -/
theorem getSeqNames_err (d : List String) :
    ∀ e, getSeqNames d = .error e →
      e = .missingData ∨ e = .typeError ∨ e = .valueError := by
  induction d with
  | nil =>
    intro e h
    simp only [getSeqNames, Except.error.injEq] at h
    exact Or.inl h.symm
  | cons line rest ih =>
    intro e h
    simp only [getSeqNames] at h
    by_cases h1 : pyStartsWith line "SEQ"
    · rw [if_pos h1] at h
      cases hn : emfNameOfTokens ((pySplitWs line).drop 1) with
      | error e1 =>
        rw [hn] at h
        simp only [Except.error.injEq] at h
        subst h
        exact Or.inr (emfNameOfTokens_err _ e1 hn)
      | ok n =>
        rw [hn] at h
        cases hr : getSeqNames rest with
        | error e2 =>
          rw [hr] at h
          simp only [Except.error.injEq] at h
          subst h
          exact ih e2 hr
        | ok nr =>
          rw [hr] at h
          exact absurd h (by simp)
    · rw [if_neg h1] at h
      by_cases h2 : pyStartsWith line "DATA"
      · rw [if_pos h2] at h
        exact absurd h (by simp)
      · rw [if_neg h2] at h
        exact ih e h
  
/-- `_get_block_seqnames` never raises the header FormatError. -/
theorem block_seqnames_no_format (d : List String) (e : PErr)
    (h : _get_block_seqnames d = .error e) : e ≠ .formatError := by
  unfold _get_block_seqnames at h
  cases hg : getSeqNames d with
  | error e1 =>
    rw [hg] at h
    simp only [Except.error.injEq] at h
    subst h
    rcases getSeqNames_err d e1 hg with h' | h' | h' <;> simp [h']
  | ok nr =>
    rw [hg] at h
    exact absurd h (by simp)

/-- Collected block parsing never raises the header FormatError. -/
theorem emfBlocks_no_format (data : List String) (e : PErr)
    (h : emfBlocks data = .error e) : e ≠ .formatError := by
  unfold emfBlocks at h
  revert h
  generalize _iter_blocks data = l
  induction l with
  | nil => intro h; exact absurd h (by simp [collectBlocks])
  | cons y ys ih =>
    intro h
    simp only [collectBlocks] at h
    cases hf : _get_block_seqnames ((data.drop y.1).take (y.2 - y.1)) with
    | error e1 =>
      rw [hf] at h
      simp only [Except.error.injEq] at h
      subst h
      exact block_seqnames_no_format _ e1 hf
    | ok m =>
      rw [hf] at h
      cases hr : collectBlocks
          (fun se => _get_block_seqnames ((data.drop se.1).take (se.2 - se.1))) ys with
      | error e2 =>
        rw [hr] at h
        simp only [Except.error.injEq] at h
        subst h
        exact ih hr
      | ok ms =>
        rw [hr] at h
        exact absurd h (by simp)

/-- C8: on non-empty input, the EMF parser raises the FormatError if and
only if format checking is enabled and the first line does not begin with
the `##FORMAT (compara)` token; with checking disabled the parse is exactly
the normal block parse and never a FormatError. -/
theorem emf_header_check (data : List String) (hne : data ≠ []) :
    ((parse_emf true data = .error .formatError) ↔
      pyStartsWith (data.headD "") "##FORMAT (compara)" = false) ∧
    parse_emf false data = emfBlocks data ∧
    parse_emf false data ≠ .error .formatError := by
  match data, hne with
  | first :: rest, _ =>
    refine ⟨⟨?_, ?_⟩, ?_, ?_⟩
    · intro h
      by_cases hh : pyStartsWith first "##FORMAT (compara)"
      · exfalso
        have hb : emfBlocks (first :: rest) = .error .formatError := by
          simpa [parse_emf, hh] using h
        exact emfBlocks_no_format _ _ hb rfl
      · simpa using hh
    · intro h
      have hh : ¬ pyStartsWith first "##FORMAT (compara)" = true := by
        simp [List.headD_cons] at h
        simp [h]
      simp [parse_emf, hh]
    · simp [parse_emf]
    · intro h
      have hb : emfBlocks (first :: rest) = .error .formatError := by
        simpa [parse_emf] using h
      exact emfBlocks_no_format _ _ hb rfl

/-- Witness for C8 at the one-line input `["junk"]`. -/
theorem emf_header_check_witness :
    ((parse_emf true ["junk"] = .error .formatError) ↔
      pyStartsWith ((["junk"] : List String).headD "") "##FORMAT (compara)" = false) ∧
    parse_emf false ["junk"] = emfBlocks ["junk"] ∧
    parse_emf false ["junk"] ≠ .error .formatError :=
  emf_header_check ["junk"] (List.cons_ne_nil _ _)
